import Mathlib

set_option autoImplicit false

/-!
Verification of the EnbPI (Ensemble Batch Prediction Intervals) conformal
prediction engine exercised by `src/Conformal_prediction/plot_ts-tutorial.ipynb`.
The notebook only calls the engine (`BlockBootstrap`, `MapieTimeSeriesRegressor`
with `fit`, `predict`, `partial_fit`); the engine's own code is not part of the
repository, so every definition below is modelled from the specification's
description of the engine. All arithmetic is exact rational arithmetic,
embedded by `Q`: unnormalised fractions with an integer numerator and a
positive natural denominator, so that every operation computes by kernel
reduction.
-/

/-- Exact rational numbers as unnormalised fractions: an integer numerator
over a positive natural denominator. Values of the engine (features, targets,
predictions, conformity scores, quantile levels) live in `Q`. -/
structure Q where
  num : Int
  den : ℕ+
deriving DecidableEq

/-- The denominator of a fraction, as an integer. -/
def Q.d (a : Q) : Int := ((a.den : ℕ) : Int)

/-- The rational zero. -/
def Q.zero : Q := ⟨0, 1⟩

/-- The rational one. -/
def Q.one : Q := ⟨1, 1⟩

/-- Embedding of the integers. -/
def Q.ofInt (n : Int) : Q := ⟨n, 1⟩

/-- Exact addition of fractions. -/
def Q.add (a b : Q) : Q := ⟨a.num * b.d + b.num * a.d, a.den * b.den⟩

/-- Exact subtraction of fractions. -/
def Q.sub (a b : Q) : Q := ⟨a.num * b.d - b.num * a.d, a.den * b.den⟩

/-- Absolute value of a fraction. -/
def Q.absQ (a : Q) : Q := ⟨|a.num|, a.den⟩

/-- Exact division by a positive natural number `n + 1`. -/
def Q.divSucc (a : Q) (n : Nat) : Q := ⟨a.num, a.den * ⟨n + 1, Nat.succ_pos n⟩⟩

/-- `a * j / k` for natural `j` and positive natural `k`. -/
def Q.scale (a : Q) (j : Nat) (k : ℕ+) : Q := ⟨a.num * (j : Int), a.den * k⟩

/-- Order on fractions by cross multiplication (denominators are positive). -/
def Q.le (a b : Q) : Prop := a.num * b.d ≤ b.num * a.d

/-- Strict order on fractions by cross multiplication. -/
def Q.lt (a b : Q) : Prop := a.num * b.d < b.num * a.d

instance (a b : Q) : Decidable (a.le b) :=
  inferInstanceAs (Decidable (a.num * b.d ≤ b.num * a.d))

instance (a b : Q) : Decidable (a.lt b) :=
  inferInstanceAs (Decidable (a.num * b.d < b.num * a.d))

/-- Insertion of a value into a sorted list (ascending). -/
def insertSorted (x : Q) : List Q → List Q
  | [] => [x]
  | y :: ys => if x.le y then x :: y :: ys else y :: insertSorted x ys

/-- Ascending insertion sort, used to take empirical quantiles. -/
def sortQ (l : List Q) : List Q := l.foldr insertSorted []

/-- Modelled from the spec: the configurable aggregation function, "mean or
median" (spec 4.3, 6). -/
inductive AggFn where
  | mean
  | median
deriving DecidableEq

/-- Median of a nonempty sorted list: middle element, or the average of the
two middle elements for even length. -/
def medianOf (l : List Q) : Q :=
  if l.length % 2 = 1 then l.getD (l.length / 2) Q.zero
  else ((l.getD (l.length / 2 - 1) Q.zero).add (l.getD (l.length / 2) Q.zero)).divSucc 1

/-- Modelled from the spec: aggregate a collection of ensemble predictions
with the configured function (mean or median); an empty collection has no
aggregate ("skip; do not fabricate a value", spec 4.3). -/
def aggregate : AggFn → List Q → Option Q
  | _, [] => none
  | .mean, x :: xs => some (((x :: xs).foldl Q.add Q.zero).divSucc xs.length)
  | .median, x :: xs => some (medianOf (sortQ (x :: xs)))

/-- Modelled from the spec: the empirical quantile index for level `q` over
`n` sorted values: the 0-based index `ceil(q * n) - 1`, clamped into
`[0, n-1]`. The index is computed by counting, so it depends only on the
rational value of `q`. -/
def quantIdx (q : Q) (n : Nat) : Nat :=
  min (n - 1)
    ((List.range n).filter (fun k : Nat => decide (((k : Int) + 1) * q.d < q.num * (n : Int)))).length

/-- Modelled from the spec: the empirical quantile of level `q` over the
residual scores (spec 4.3, "compute ... empirical quantiles over current
window contents"); total, with `Q.zero` returned for an empty list (callers
guard emptiness and raise NumericalError). -/
def quantileOf (scores : List Q) (q : Q) : Q :=
  (sortQ scores).getD (quantIdx q scores.length) Q.zero

/-- Modelled from the spec: the discretised beta grid in `(0, alpha)` for
granularity `g`: the fractions `alpha * (j+1) / (2*(g+1))` for
`j < 2*g + 1`. The symmetric split `alpha / 2` is the grid point at
`j = g`. -/
def betaGrid (g : Nat) (alpha : Q) : List Q :=
  (List.range (2 * g + 1)).map (fun j => alpha.scale (j + 1) ⟨2 * (g + 1), by positivity⟩)

/-- Modelled from the spec: the beta-search objective
`quantile(1 - alpha + beta) - quantile(beta)` (spec 4.3). -/
def widthObj (scores : List Q) (alpha beta : Q) : Q :=
  (quantileOf scores ((Q.one.sub alpha).add beta)).sub (quantileOf scores beta)

/-- First argmin of `f` over a list: the fold keeps the current best and
replaces it only on a strict improvement, so ties go to the earliest (for an
ascending beta grid: the smallest) element. -/
def argminQ (f : Q → Q) : List Q → Option Q
  | [] => none
  | x :: xs => some (xs.foldl (fun b y => if (f y).lt (f b) then y else b) x)

/-- Modelled from the spec: beta optimization, "search beta over a
discretized grid in (0, alpha) and choose the value minimizing
(quantile(1-alpha+beta) - quantile(beta)) ... ties broken by the smallest
beta" (spec 4.3). -/
def betaOpt (scores : List Q) (alpha : Q) (g : Nat) : Option Q :=
  argminQ (widthObj scores alpha) (betaGrid g alpha)

/-- Modelled from the spec: the error taxonomy of the engine (spec 7). -/
inductive Err where
  | configurationError
  | notFittedError
  | validationError
  | numericalError
deriving DecidableEq

/-- Modelled from the spec: the Residual Window, "a fixed-capacity ordered
buffer of (order index, absolute conformity score) pairs" (spec 3). -/
structure Window where
  entries : List (Nat × Q)
  capacity : Nat
deriving DecidableEq

/-- Modelled from the spec: push a residual into the window, "evicting the
oldest when at capacity (FIFO)" (spec 3): the new entry is appended and the
front is dropped down to capacity. -/
def pushScore (w : Window) (e : Nat × Q) : Window :=
  { w with entries := (w.entries ++ [e]).drop ((w.entries ++ [e]).length - w.capacity) }

/-- Modelled from the spec: the current Quantile Pair of the residual window
for miscoverage level `alpha` (spec 3, 4.3): by default the `(alpha/2)`-lower
and `(1-alpha/2)`-upper empirical quantiles; with beta optimization the pair
`(quantile(beta), quantile(1-alpha+beta))` at the optimizing beta. Fails with
NumericalError on an empty window. -/
def quantilePair (w : Window) (alpha : Q) (optimizeBeta : Bool) (g : Nat) : Except Err (Q × Q) :=
  let scores := w.entries.map (fun e => e.2)
  if scores.isEmpty then .error .numericalError
  else if optimizeBeta then
    match betaOpt scores alpha g with
    | none => .error .numericalError
    | some b => .ok (quantileOf scores b, quantileOf scores ((Q.one.sub alpha).add b))
  else .ok (quantileOf scores (alpha.divSucc 1), quantileOf scores (Q.one.sub (alpha.divSucc 1)))

/-- A linear congruential step: the explicit deterministic random state the
spec requires ("implicit global random state ... must become an explicit
seed", spec 9). -/
def lcg (s : Nat) : Nat := (1664525 * s + 1013904223) % 4294967296

/-- Draw a value below `n` (0 when `n = 0`) and the successor state. -/
def randBelow (s n : Nat) : Nat × Nat :=
  ((if n = 0 then 0 else lcg s % n), lcg s)

/-- Draw `k` values below `bound`, threading the state. -/
def sampleStarts (bound : Nat) : Nat → Nat → List Nat × Nat
  | 0, s => ([], s)
  | k + 1, s =>
    ((randBelow s bound).1 :: (sampleStarts bound k (randBelow s bound).2).1,
      (sampleStarts bound k (randBelow s bound).2).2)

/-- Remove the element at an index from a list, returning it with the rest
(0 and the list unchanged when out of range). -/
def pickAt : List Nat → Nat → Nat × List Nat
  | [], _ => (0, [])
  | x :: xs, 0 => (x, xs)
  | x :: xs, i + 1 => ((pickAt xs i).1, x :: (pickAt xs i).2)

/-- A seeded permutation of a list: repeatedly extract a uniformly chosen
remaining element (fuel bounds the recursion by the list length). -/
def shuffleGo : Nat → Nat → List Nat → List Nat × Nat
  | 0, s, l => (l, s)
  | fuel + 1, s, l =>
    if l.isEmpty then ([], s)
    else
      ((pickAt l (randBelow s l.length).1).1 ::
        (shuffleGo fuel (randBelow s l.length).2 (pickAt l (randBelow s l.length).1).2).1,
        (shuffleGo fuel (randBelow s l.length).2 (pickAt l (randBelow s l.length).1).2).2)

/-- The contiguous index block of length `len` starting at `start`. -/
def blockOf (start len : Nat) : List Nat := (List.range len).map (fun j => start + j)

/-- Modelled from the spec: one overlapping-mode block-bootstrap resample of
`[0, N)` with block length `L`: block start positions are sampled
"independently and uniformly, allowing reuse" (spec 4.1), the blocks are
concatenated and truncated to length `N`. -/
def overlapResample (N L s : Nat) : List Nat × Nat :=
  (((sampleStarts (N - L + 1) ((N + L - 1) / L) s).1.map (fun st => blockOf st L)).flatten.take N,
    (sampleStarts (N - L + 1) ((N + L - 1) / L) s).2)

/-- Modelled from the spec: one non-overlapping-mode resample: `[0, N)` is
partitioned into blocks and the block order is permuted "without reusing a
block's start position within one resample" (spec 4.1). -/
def nonOverlapResample (N L s : Nat) : List Nat × Nat :=
  ((((shuffleGo ((N + L - 1) / L) s ((List.range ((N + L - 1) / L)).map (fun b => b * L))).1).map
      (fun st => blockOf st L)).flatten.take N,
    (shuffleGo ((N + L - 1) / L) s ((List.range ((N + L - 1) / L)).map (fun b => b * L))).2)

/-- Modelled from the spec: the Block Bootstrap Sampler (spec 4.1): `r`
resamples of `[0, N)` from contiguous blocks of length `L`, overlapping or
not, fully determined by the seed `s`. -/
def genResamples (overlap : Bool) (N L : Nat) : Nat → Nat → List (List Nat)
  | 0, _ => []
  | r + 1, s =>
    (if overlap then overlapResample N L s else nonOverlapResample N L s).1 ::
      genResamples overlap N L r (if overlap then overlapResample N L s else nonOverlapResample N L s).2

/-- Modelled from the spec: an Ensemble Member, "one trained base model plus
the out-of-bag index set used to create it" (spec 3). -/
structure Member where
  predictFn : Q → Q
  oobIdx : List Nat

/-- Modelled from the spec: the engine's configuration (spec 6):
resample count, block length, overlap flag, seed, aggregation function and
worker count. -/
structure Config where
  n_resamplings : Nat
  length : Nat
  overlapping : Bool
  seed : Nat
  agg_function : AggFn
  worker_count : Nat

/-- Modelled from the spec: a fitted EnbPI model: the ensemble, the bootstrap
resamples, the full-training-set single model for non-ensemble prediction,
the aggregation function, the residual window and the last observed order
index. The Residual Window and Ensemble are exclusively owned by one model
instance (spec 3). -/
structure Model where
  members : List Member
  resamples : List (List Nat)
  singleFn : Q → Q
  agg_function : AggFn
  window : Window
  lastIndex : Nat

/-- A trainable base model, supplied by the caller and treated as opaque:
from a training set it produces a prediction function. -/
def TrainFn : Type := List (Q × Q) → Q → Q

/-- The out-of-bag indices of a resample: training indices absent from it
(spec 4.2). -/
def oobOf (N : Nat) (rs : List Nat) : List Nat :=
  (List.range N).filter (fun i => !(rs.contains i))

/-- The training subset corresponding to a resample's index sequence. -/
def trainSubset (data : List (Q × Q)) (rs : List Nat) : List (Q × Q) :=
  rs.filterMap (fun i => data.get? i)

/-- The predictions for training point `i` (features `x`) of every ensemble
member whose out-of-bag set contains `i` (spec 4.3). -/
def oobPreds (members : List Member) (i : Nat) (x : Q) : List Q :=
  members.filterMap (fun m => if m.oobIdx.contains i then some (m.predictFn x) else none)

/-- Modelled from the spec: out-of-bag aggregation and conformity scores
(spec 4.3): for each training index in ascending order, aggregate the
out-of-bag predictions with the configured function and record the absolute
difference to the true target; a point with no out-of-bag member contributes
no residual. -/
def oobResiduals (agg : AggFn) (members : List Member) (data : List (Q × Q)) : List (Nat × Q) :=
  (List.range data.length).filterMap (fun i =>
    match data.get? i with
    | none => none
    | some xy =>
      match aggregate agg (oobPreds members i xy.1) with
      | none => none
      | some p => some (i, (p.sub xy.2).absQ))

/-- Modelled from the spec: `fit` (spec 4.1-4.3, 6): validate the
configuration (ConfigurationError if the block length exceeds the training
size or is zero, or the resample count is below one, before any training),
generate the block-bootstrap resamples from the seed, train one base model
per resample, record out-of-bag sets, and initialise the residual window
with all eligible training conformity scores, capacity fixed to that count. -/
def fit (train : TrainFn) (cfg : Config) (data : List (Q × Q)) : Except Err Model :=
  if cfg.length > data.length ∨ cfg.length = 0 ∨ cfg.n_resamplings < 1 then
    .error .configurationError
  else
    .ok
      { members := (genResamples cfg.overlapping data.length cfg.length cfg.n_resamplings cfg.seed).map
          (fun rs => { predictFn := train (trainSubset data rs), oobIdx := oobOf data.length rs }),
        resamples := genResamples cfg.overlapping data.length cfg.length cfg.n_resamplings cfg.seed,
        singleFn := train data,
        agg_function := cfg.agg_function,
        window :=
          { entries := oobResiduals cfg.agg_function
              ((genResamples cfg.overlapping data.length cfg.length cfg.n_resamplings cfg.seed).map
                (fun rs => { predictFn := train (trainSubset data rs), oobIdx := oobOf data.length rs }))
              data,
            capacity := (oobResiduals cfg.agg_function
              ((genResamples cfg.overlapping data.length cfg.length cfg.n_resamplings cfg.seed).map
                (fun rs => { predictFn := train (trainSubset data rs), oobIdx := oobOf data.length rs }))
              data).length },
        lastIndex := data.length - 1 }

/-- Modelled from the spec: the ensemble point forecast (spec 4.4): the
configured aggregate across all ensemble member predictions (the single
model only as fallback of an empty ensemble, which `fit` never produces). -/
def ensembleForecast (M : Model) (x : Q) : Q :=
  (aggregate M.agg_function (M.members.map (fun m => m.predictFn x))).getD (M.singleFn x)

/-- Modelled from the spec: the point forecast of one test point: ensemble
aggregate in "ensemble" mode, the single full-training-set model otherwise
(spec 4.4). -/
def predictPoint (M : Model) (ensemble : Bool) (x : Q) : Q :=
  if ensemble then ensembleForecast M x else M.singleFn x

/-- `List.mapM` for `Except`, written structurally: the first error aborts. -/
def mapME (f : Q → Except Err (Q × Q)) : List Q → Except Err (List (Q × Q))
  | [] => .ok []
  | a :: l =>
    match f a, mapME f l with
    | .ok b, .ok bs => .ok (b :: bs)
    | .error e, _ => .error e
    | .ok _, .error e => .error e

/-- Modelled from the spec: `predict` (spec 4.4, 6): per test point one
point forecast, and per alpha level the interval
`[forecast - lower_margin, forecast + upper_margin]` where the margins are
the current Quantile Pair of the residual window; the intervals are indexed
`[test_point][bound][alpha_level]` (for each test point: the list of lower
bounds, then the list of upper bounds, both indexed by alpha level). -/
def predict (M : Model) (xs : List Q) (alphas : List Q) (ensemble optimizeBeta : Bool)
    (g : Nat) : Except Err (List Q × List (List Q × List Q)) :=
  match mapME (fun a => quantilePair M.window a optimizeBeta g) alphas with
  | .error e => .error e
  | .ok pairs =>
    .ok (xs.map (predictPoint M ensemble),
      (xs.map (predictPoint M ensemble)).map
        (fun f => (pairs.map (fun p => f.sub p.1), pairs.map (fun p => f.add p.2))))

/-- Whether a list of order indices is strictly increasing and starts
strictly above `prev`. -/
def strictlyIncreasingFrom (prev : Nat) : List Nat → Bool
  | [] => true
  | i :: rest => decide (prev < i) && strictlyIncreasingFrom i rest

/-- The greatest order index of a batch, starting from `prev`. -/
def batchLast (prev : Nat) (batch : List (Nat × Q × Q)) : Nat :=
  batch.foldl (fun acc s => max acc s.1) prev

/-- Modelled from the spec: `partial_fit` (spec 4.5): for each newly observed
(order index, features, target) triple, estimate what the ensemble would have
forecast with the same out-of-bag aggregation logic used in training (every
member is out-of-bag for a post-training point), compute the absolute
conformity score and push it into the residual window with FIFO eviction.
Inputs must be strictly increasing in temporal order relative to prior calls,
else ValidationError. Nothing is retrained and no ensemble member or
bootstrap history changes. -/
def partialFit (M : Model) (batch : List (Nat × Q × Q)) : Except Err Model :=
  if strictlyIncreasingFrom M.lastIndex (batch.map (fun s => s.1)) then
    .ok { M with
      window := batch.foldl
        (fun w s => pushScore w (s.1, ((ensembleForecast M s.2.1).sub s.2.2).absQ)) M.window,
      lastIndex := batchLast M.lastIndex batch }
  else .error .validationError

/-- A sequence of `partial_fit` calls, stopping at the first error. -/
def processAll (M : Model) : List (List (Nat × Q × Q)) → Except Err Model
  | [] => .ok M
  | b :: bs =>
    match partialFit M b with
    | .error e => .error e
    | .ok M2 => processAll M2 bs

/-- Nonnegativity of every conformity score in the residual window: the
engine establishes it at `fit` and `partialFit` preserves it, since scores
are absolute differences. -/
def WindowNonneg (w : Window) : Prop := ∀ e ∈ w.entries, Q.zero.le e.2

/-- A concrete caller-supplied base model for witnesses: it predicts the
feature value itself. -/
def wTrain : TrainFn := fun _ x => x

/-- A concrete witness configuration: two resamples of block length two,
overlapping, seed 7, mean aggregation. -/
def wCfg : Config :=
  { n_resamplings := 2, length := 2, overlapping := true, seed := 7,
    agg_function := .mean, worker_count := 1 }

/-- A concrete witness training set of four samples. -/
def wData : List (Q × Q) :=
  [(Q.ofInt 1, Q.ofInt 1), (Q.ofInt 2, Q.ofInt 2), (Q.ofInt 3, Q.ofInt 3), (Q.ofInt 4, Q.ofInt 4)]

/-- A placeholder model used only in unreachable error branches of witness
definitions. -/
def defaultModel : Model :=
  { members := [], resamples := [], singleFn := fun x => x, agg_function := .mean,
    window := { entries := [], capacity := 0 }, lastIndex := 0 }

/-- The fitted witness model. -/
def wM0 : Model :=
  match fit wTrain wCfg wData with
  | .ok M => M
  | .error _ => defaultModel

/-- Two concrete in-order `partialFit` batches for the witness model. -/
def wBatches : List (List (Nat × Q × Q)) :=
  [[(4, Q.ofInt 5, Q.ofInt 6)], [(5, Q.ofInt 6, Q.ofInt 6), (6, Q.ofInt 7, Q.ofInt 9)]]

/-- The witness model after the first `partialFit` batch alone. -/
def wM1 : Model :=
  match partialFit wM0 [(4, Q.ofInt 5, Q.ofInt 6)] with
  | .ok M => M
  | .error _ => wM0

/-- The witness model after the two `partialFit` batches. -/
def wM : Model :=
  match processAll wM0 wBatches with
  | .ok M => M
  | .error _ => wM0

/-- The witness `predict` output: two test points, two alpha levels,
ensemble mode with beta optimization. -/
def wPredOut : List Q × List (List Q × List Q) :=
  match predict wM [Q.ofInt 10, Q.ofInt 11] [⟨1, 2⟩, ⟨1, 10⟩] true true 1 with
  | .ok out => out
  | .error _ => ([], [])

/-- A residual multiset on which the beta-optimized interval is strictly
wider than the symmetric one: sorted scores `0,0,1,5,6,6,6,6`. -/
def cexScores : List Q :=
  [Q.ofInt 0, Q.ofInt 0, Q.ofInt 1, Q.ofInt 5, Q.ofInt 6, Q.ofInt 6, Q.ofInt 6, Q.ofInt 6]

/-- The counterexample residual window holding `cexScores`. -/
def cexWindow : Window := { entries := (List.range 8).zip cexScores, capacity := 8 }

/-- A fitted-model shape around the counterexample window (one constant
member), used to exhibit the wide beta-optimized interval through
`predict`. -/
def cexModel : Model :=
  { members := [{ predictFn := fun _ => Q.ofInt 20, oobIdx := [] }], resamples := [[0]],
    singleFn := fun _ => Q.ofInt 20, agg_function := .mean, window := cexWindow,
    lastIndex := 7 }
theorem Q.d_pos (a : Q) : 0 < a.d := by
  unfold Q.d
  exact_mod_cast a.den.pos

theorem Q.le_refl (a : Q) : a.le a := le_of_eq rfl

theorem Q.le_of_not_lt {a b : Q} (h : ¬ a.lt b) : b.le a := by
  simpa [Q.lt, Q.le] using not_lt.mp h

theorem Q.lt_imp_le {a b : Q} (h : a.lt b) : a.le b := le_of_lt h

theorem Q.le_trans {a b c : Q} (hab : a.le b) (hbc : b.le c) : a.le c := by
  have hb := b.d_pos
  have h1 : a.num * b.d * c.d ≤ b.num * a.d * c.d :=
    mul_le_mul_of_nonneg_right hab (le_of_lt c.d_pos)
  have h2 : b.num * c.d * a.d ≤ c.num * b.d * a.d :=
    mul_le_mul_of_nonneg_right hbc (le_of_lt a.d_pos)
  have h3 : a.num * c.d * b.d ≤ c.num * a.d * b.d := by nlinarith
  exact le_of_mul_le_mul_right h3 hb

theorem Q.lt_of_lt_of_le {a b c : Q} (hab : a.lt b) (hbc : b.le c) : a.lt c := by
  have hb := b.d_pos
  have h1 : a.num * b.d * c.d < b.num * a.d * c.d :=
    mul_lt_mul_of_pos_right hab c.d_pos
  have h2 : b.num * c.d * a.d ≤ c.num * b.d * a.d :=
    mul_le_mul_of_nonneg_right hbc (le_of_lt a.d_pos)
  have h3 : a.num * c.d * b.d < c.num * a.d * b.d := by nlinarith
  exact lt_of_mul_lt_mul_right h3 (le_of_lt hb)

theorem Q.le_lt_trans {a b c : Q} (hab : a.le b) (hbc : b.lt c) : a.lt c := by
  have hb := b.d_pos
  have h1 : a.num * b.d * c.d ≤ b.num * a.d * c.d :=
    mul_le_mul_of_nonneg_right hab (le_of_lt c.d_pos)
  have h2 : b.num * c.d * a.d < c.num * b.d * a.d :=
    mul_lt_mul_of_pos_right hbc a.d_pos
  have h3 : a.num * c.d * b.d < c.num * a.d * b.d := by nlinarith
  exact lt_of_mul_lt_mul_right h3 (le_of_lt hb)

theorem Q.zero_le_iff (a : Q) : Q.zero.le a ↔ 0 ≤ a.num := by
  simp [Q.le, Q.zero, Q.d]

theorem Q.zero_le_absQ (a : Q) : Q.zero.le a.absQ := by
  rw [Q.zero_le_iff]
  exact abs_nonneg a.num

/-- The invariant behind ordered prediction intervals: with nonnegative
margins `lo` and `hi`, the lower bound `f - lo` is at most the upper bound
`f + hi`. -/
theorem Q.sub_le_add {f lo hi : Q} (hlo : Q.zero.le lo) (hhi : Q.zero.le hi) :
    (f.sub lo).le (f.add hi) := by
  rw [Q.zero_le_iff] at hlo hhi
  have hf := f.d_pos
  have hl := lo.d_pos
  have hh := hi.d_pos
  show (f.num * lo.d - lo.num * f.d) * ((f.add hi).d) ≤
    (f.num * hi.d + hi.num * f.d) * ((f.sub lo).d)
  have e1 : (f.add hi).d = f.d * hi.d := by
    simp [Q.add, Q.d, PNat.mul_coe]
  have e2 : (f.sub lo).d = f.d * lo.d := by
    simp [Q.sub, Q.d, PNat.mul_coe]
  rw [e1, e2]
  nlinarith [mul_nonneg hlo (mul_nonneg (mul_nonneg hf.le hf.le) hh.le),
    mul_nonneg hhi (mul_nonneg (mul_nonneg hf.le hf.le) hl.le)]


theorem mem_insertSorted {x a : Q} {l : List Q} (h : x ∈ insertSorted a l) : x = a ∨ x ∈ l := by
  induction l with
  | nil => simpa [insertSorted] using h
  | cons y ys ih =>
    by_cases hle : a.le y
    · rw [insertSorted, if_pos hle] at h
      rcases List.mem_cons.mp h with h1 | h1
      · exact Or.inl h1
      · exact Or.inr h1
    · rw [insertSorted, if_neg hle] at h
      rcases List.mem_cons.mp h with h1 | h1
      · exact Or.inr (by simp [h1])
      · rcases ih h1 with h2 | h2
        · exact Or.inl h2
        · exact Or.inr (List.mem_cons_of_mem y h2)

theorem length_insertSorted (a : Q) (l : List Q) : (insertSorted a l).length = l.length + 1 := by
  induction l with
  | nil => rfl
  | cons y ys ih => by_cases hle : a.le y <;> simp [insertSorted, hle, ih]

theorem mem_sortQ {x : Q} {l : List Q} (h : x ∈ sortQ l) : x ∈ l := by
  induction l with
  | nil => simp [sortQ] at h
  | cons y ys ih =>
    rw [sortQ, List.foldr_cons] at h
    rcases mem_insertSorted h with h1 | h1
    · simp [h1]
    · exact List.mem_cons_of_mem y (ih h1)

theorem length_sortQ (l : List Q) : (sortQ l).length = l.length := by
  induction l with
  | nil => rfl
  | cons y ys ih =>
    rw [sortQ, List.foldr_cons, length_insertSorted]
    exact congrArg (fun t => t + 1) ih

theorem getD_mem {α : Type} (l : List α) (n : Nat) (d : α) (h : n < l.length) :
    l.getD n d ∈ l := by
  induction l generalizing n with
  | nil => simp at h
  | cons x xs ih =>
    cases n with
    | zero => simp
    | succ n =>
      rw [List.getD_cons_succ]
      exact List.mem_cons_of_mem x (ih n (by simpa using Nat.lt_of_succ_lt_succ h))

theorem quantIdx_lt (q : Q) {n : Nat} (h : 0 < n) : quantIdx q n < n := by
  unfold quantIdx
  have := Nat.min_le_left (n - 1)
    ((List.range n).filter (fun k => decide (((k : Int) + 1) * q.d < q.num * (n : Int)))).length
  omega

theorem quantileOf_mem {scores : List Q} (q : Q) (h : scores ≠ []) :
    quantileOf scores q ∈ scores := by
  have hn : 0 < scores.length := List.length_pos.mpr h
  have hidx : quantIdx q scores.length < (sortQ scores).length := by
    rw [length_sortQ]
    exact quantIdx_lt q hn
  exact mem_sortQ (getD_mem _ _ _ hidx)

theorem quantileOf_nonneg {scores : List Q} (q : Q) (h : ∀ s ∈ scores, Q.zero.le s) :
    Q.zero.le (quantileOf scores q) := by
  cases scores with
  | nil => exact Q.le_refl Q.zero
  | cons a l => exact h _ (quantileOf_mem q (by simp))

theorem mapME_ok_length {f : Q → Except Err (Q × Q)} {l : List Q} {ys : List (Q × Q)}
    (h : mapME f l = .ok ys) : ys.length = l.length := by
  induction l generalizing ys with
  | nil =>
    simp only [mapME, Except.ok.injEq] at h
    subst h
    rfl
  | cons a l ih =>
    rw [mapME] at h
    cases hfa : f a with
    | error e => rw [hfa] at h; simp at h
    | ok b =>
      rw [hfa] at h
      cases hr : mapME f l with
      | error e => rw [hr] at h; simp at h
      | ok bs =>
        rw [hr] at h
        simp only [Except.ok.injEq] at h
        subst h
        simp [ih hr]

theorem mapME_ok_mem {f : Q → Except Err (Q × Q)} {l : List Q} {ys : List (Q × Q)}
    (h : mapME f l = .ok ys) {y : Q × Q} (hy : y ∈ ys) : ∃ a ∈ l, f a = .ok y := by
  induction l generalizing ys with
  | nil =>
    simp only [mapME, Except.ok.injEq] at h
    subst h
    simp at hy
  | cons a l ih =>
    rw [mapME] at h
    cases hfa : f a with
    | error e => rw [hfa] at h; simp at h
    | ok b =>
      rw [hfa] at h
      cases hr : mapME f l with
      | error e => rw [hr] at h; simp at h
      | ok bs =>
        rw [hr] at h
        simp only [Except.ok.injEq] at h
        subst h
        rcases List.mem_cons.mp hy with h1 | h1
        · refine ⟨a, List.mem_cons_self a l, ?_⟩
          rw [h1]
          exact hfa
        · obtain ⟨c, hc, hfc⟩ := ih hr h1
          exact ⟨c, List.mem_cons_of_mem a hc, hfc⟩

theorem mapME_cons_error {f : Q → Except Err (Q × Q)} {a : Q} {l : List Q} {e : Err}
    (h : f a = .error e) : mapME f (a :: l) = .error e := by
  rw [mapME, h]

theorem fit_ok_fields {train : TrainFn} {cfg : Config} {data : List (Q × Q)} {M : Model}
    (h : fit train cfg data = .ok M) :
    M.members = (genResamples cfg.overlapping data.length cfg.length cfg.n_resamplings cfg.seed).map
      (fun rs => { predictFn := train (trainSubset data rs), oobIdx := oobOf data.length rs }) ∧
    M.resamples = genResamples cfg.overlapping data.length cfg.length cfg.n_resamplings cfg.seed ∧
    M.singleFn = train data ∧
    M.agg_function = cfg.agg_function ∧
    M.window.entries = oobResiduals cfg.agg_function M.members data ∧
    M.window.capacity = M.window.entries.length ∧
    M.lastIndex = data.length - 1 := by
  unfold fit at h
  split at h
  · simp at h
  · rw [Except.ok.injEq] at h
    subst h
    exact ⟨rfl, rfl, rfl, rfl, rfl, rfl, rfl⟩

theorem partialFit_ok_elim {M : Model} {batch : List (Nat × Q × Q)} {M2 : Model}
    (h : partialFit M batch = .ok M2) :
    strictlyIncreasingFrom M.lastIndex (batch.map (fun s => s.1)) = true ∧
    M2 = { M with
      window := batch.foldl
        (fun w s => pushScore w (s.1, ((ensembleForecast M s.2.1).sub s.2.2).absQ)) M.window,
      lastIndex := batchLast M.lastIndex batch } := by
  unfold partialFit at h
  split at h
  · next hcond =>
    rw [Except.ok.injEq] at h
    exact ⟨hcond, h.symm⟩
  · simp at h

theorem fit_window_nonneg {train : TrainFn} {cfg : Config} {data : List (Q × Q)} {M : Model}
    (h : fit train cfg data = .ok M) : WindowNonneg M.window := by
  obtain ⟨-, -, -, -, hwin, -, -⟩ := fit_ok_fields h
  intro e he
  rw [hwin] at he
  simp only [oobResiduals, List.mem_filterMap] at he
  obtain ⟨i, -, hi⟩ := he
  split at hi
  · simp at hi
  · split at hi
    · simp at hi
    · simp only [Option.some.injEq] at hi
      subst hi
      exact Q.zero_le_absQ _

theorem pushScore_nonneg {w : Window} {e : Nat × Q} (hw : WindowNonneg w)
    (he : Q.zero.le e.2) : WindowNonneg (pushScore w e) := by
  intro x hx
  have hx2 : x ∈ w.entries ++ [e] := List.mem_of_mem_drop hx
  rcases List.mem_append.mp hx2 with h1 | h1
  · exact hw x h1
  · simp only [List.mem_singleton] at h1
    subst h1
    exact he

theorem foldl_push_nonneg (M : Model) (batch : List (Nat × Q × Q)) :
    ∀ w : Window, WindowNonneg w →
      WindowNonneg (batch.foldl
        (fun w s => pushScore w (s.1, ((ensembleForecast M s.2.1).sub s.2.2).absQ)) w) := by
  induction batch with
  | nil => exact fun w hw => hw
  | cons s rest ih =>
    intro w hw
    rw [List.foldl_cons]
    exact ih _ (pushScore_nonneg hw (Q.zero_le_absQ _))

theorem partialFit_nonneg {M : Model} {batch : List (Nat × Q × Q)} {M2 : Model}
    (h : partialFit M batch = .ok M2) (hw : WindowNonneg M.window) : WindowNonneg M2.window := by
  obtain ⟨-, h2⟩ := partialFit_ok_elim h
  subst h2
  exact foldl_push_nonneg M batch M.window hw

theorem processAll_nonneg {batches : List (List (Nat × Q × Q))} {M M2 : Model}
    (h : processAll M batches = .ok M2) (hw : WindowNonneg M.window) : WindowNonneg M2.window := by
  induction batches generalizing M with
  | nil =>
    simp only [processAll, Except.ok.injEq] at h
    subst h
    exact hw
  | cons b bs ih =>
    rw [processAll] at h
    split at h
    · simp at h
    · next M1 heq => exact ih h (partialFit_nonneg heq hw)

theorem quantilePair_ok_nonneg {w : Window} {a : Q} {ob : Bool} {g : Nat} {pr : Q × Q}
    (hw : WindowNonneg w) (h : quantilePair w a ob g = .ok pr) :
    Q.zero.le pr.1 ∧ Q.zero.le pr.2 := by
  have hs : ∀ s ∈ w.entries.map (fun e => e.2), Q.zero.le s := by
    intro s hsm
    obtain ⟨e2, he2, he3⟩ := List.mem_map.mp hsm
    rw [← he3]
    exact hw e2 he2
  simp only [quantilePair] at h
  split at h
  · simp at h
  · split at h
    · split at h
      · simp at h
      · rw [Except.ok.injEq] at h
        subst h
        exact ⟨quantileOf_nonneg _ hs, quantileOf_nonneg _ hs⟩
    · rw [Except.ok.injEq] at h
      subst h
      exact ⟨quantileOf_nonneg _ hs, quantileOf_nonneg _ hs⟩

theorem predict_ok_elim {M : Model} {xs alphas : List Q} {e ob : Bool} {g : Nat}
    {preds : List Q} {ivs : List (List Q × List Q)}
    (hp : predict M xs alphas e ob g = .ok (preds, ivs)) :
    preds = xs.map (predictPoint M e) ∧ preds.length = xs.length ∧ ivs.length = xs.length ∧
    ∃ pairs : List (Q × Q), mapME (fun a => quantilePair M.window a ob g) alphas = .ok pairs ∧
      pairs.length = alphas.length ∧
      ivs = preds.map (fun f => (pairs.map (fun p => f.sub p.1), pairs.map (fun p => f.add p.2))) := by
  unfold predict at hp
  split at hp
  · simp at hp
  · next pairs heq =>
    simp only [Except.ok.injEq, Prod.mk.injEq] at hp
    obtain ⟨hpreds, hivs⟩ := hp
    subst hpreds
    subst hivs
    refine ⟨rfl, by simp, by simp, pairs, heq, mapME_ok_length heq, rfl⟩

theorem mapped_getD_le (f : Q) (pairs : List (Q × Q))
    (h : ∀ p ∈ pairs, Q.zero.le p.1 ∧ Q.zero.le p.2) (k : Nat) :
    ((pairs.map (fun p => f.sub p.1)).getD k Q.zero).le
      ((pairs.map (fun p => f.add p.2)).getD k Q.zero) := by
  induction pairs generalizing k with
  | nil => exact Q.le_refl Q.zero
  | cons p ps ih =>
    cases k with
    | zero =>
      simp only [List.map_cons, List.getD_cons_zero]
      exact Q.sub_le_add (h p (List.mem_cons_self p ps)).1 (h p (List.mem_cons_self p ps)).2
    | succ k =>
      simp only [List.map_cons, List.getD_cons_succ]
      exact ih (fun p2 hp2 => h p2 (List.mem_cons_of_mem p hp2)) k

theorem pushScore_len {w : Window} (e : Nat × Q) (h : w.entries.length = w.capacity) :
    (pushScore w e).entries.length = w.capacity := by
  simp only [pushScore, List.length_drop, List.length_append, List.length_singleton]
  omega

theorem foldl_push_len (M : Model) (batch : List (Nat × Q × Q)) :
    ∀ w : Window, w.entries.length = w.capacity →
      (batch.foldl (fun w s => pushScore w (s.1, ((ensembleForecast M s.2.1).sub s.2.2).absQ))
          w).entries.length = w.capacity ∧
      (batch.foldl (fun w s => pushScore w (s.1, ((ensembleForecast M s.2.1).sub s.2.2).absQ))
          w).capacity = w.capacity := by
  induction batch with
  | nil => exact fun w h => ⟨h, rfl⟩
  | cons s rest ih =>
    intro w h
    rw [List.foldl_cons]
    have h2 : (pushScore w (s.1, ((ensembleForecast M s.2.1).sub s.2.2).absQ)).entries.length
        = (pushScore w (s.1, ((ensembleForecast M s.2.1).sub s.2.2).absQ)).capacity :=
      pushScore_len _ h
    obtain ⟨l1, c1⟩ := ih _ h2
    constructor
    · rw [l1]
      exact (rfl : (pushScore w _).capacity = w.capacity)
    · rw [c1]
      exact (rfl : (pushScore w _).capacity = w.capacity)

theorem partialFit_window_inv {M : Model} {batch : List (Nat × Q × Q)} {M2 : Model}
    (h : partialFit M batch = .ok M2)
    (hlen : M.window.entries.length = M.window.capacity) :
    M2.window.entries.length = M2.window.capacity ∧ M2.window.capacity = M.window.capacity := by
  obtain ⟨-, h2⟩ := partialFit_ok_elim h
  subst h2
  obtain ⟨l1, c1⟩ := foldl_push_len M batch M.window hlen
  exact ⟨by rw [l1, c1], c1⟩

theorem processAll_window_inv {batches : List (List (Nat × Q × Q))} {M M2 : Model}
    (h : processAll M batches = .ok M2)
    (hlen : M.window.entries.length = M.window.capacity) :
    M2.window.entries.length = M2.window.capacity ∧ M2.window.capacity = M.window.capacity := by
  induction batches generalizing M with
  | nil =>
    simp only [processAll, Except.ok.injEq] at h
    subst h
    exact ⟨hlen, rfl⟩
  | cons b bs ih =>
    rw [processAll] at h
    split at h
    · simp at h
    · next M1 heq =>
      obtain ⟨l1, c1⟩ := partialFit_window_inv heq hlen
      obtain ⟨l2, c2⟩ := ih h l1
      exact ⟨l2, by rw [c2, c1]⟩

theorem strictlyIncreasingFrom_all {p : Nat} {l : List Nat}
    (h : strictlyIncreasingFrom p l = true) : ∀ i ∈ l, p < i := by
  induction l generalizing p with
  | nil => intro i hi; simp at hi
  | cons j rest ih =>
    rw [strictlyIncreasingFrom, Bool.and_eq_true, decide_eq_true_eq] at h
    intro i hi
    rcases List.mem_cons.mp hi with h1 | h1
    · rw [h1]; exact h.1
    · exact Nat.lt_trans h.1 (ih h.2 i h1)

/-- C1: for every fitted model, batch of test points and alpha levels,
`predict` returns one point forecast per test point and, per alpha, the
interval `[forecast - lower_margin, forecast + upper_margin]` with the
margins taken from the current Quantile Pair of the residual window; the
intervals output is indexed `[test_point][bound][alpha_level]`. -/
theorem predict_forecast_and_interval_shape (M : Model) (xs alphas : List Q)
    (e ob : Bool) (g : Nat) (preds : List Q) (ivs : List (List Q × List Q))
    (hp : predict M xs alphas e ob g = .ok (preds, ivs)) :
    preds = xs.map (predictPoint M e) ∧ preds.length = xs.length ∧ ivs.length = xs.length ∧
    ∃ pairs : List (Q × Q), mapME (fun a => quantilePair M.window a ob g) alphas = .ok pairs ∧
      pairs.length = alphas.length ∧
      ivs = preds.map (fun f => (pairs.map (fun p => f.sub p.1), pairs.map (fun p => f.add p.2))) :=
  predict_ok_elim hp

/-- Witness for C1 on the concrete fitted and updated witness model, two
test points and two alpha levels. -/
theorem predict_forecast_and_interval_shape_w :
    wPredOut.1 = [Q.ofInt 10, Q.ofInt 11].map (predictPoint wM true) ∧
    wPredOut.1.length = 2 ∧ wPredOut.2.length = 2 ∧
    ∃ pairs : List (Q × Q),
      mapME (fun a => quantilePair wM.window a true 1) [⟨1, 2⟩, ⟨1, 10⟩] = .ok pairs ∧
      pairs.length = 2 ∧
      wPredOut.2 = wPredOut.1.map
        (fun f => (pairs.map (fun p => f.sub p.1), pairs.map (fun p => f.add p.2))) :=
  predict_forecast_and_interval_shape wM [Q.ofInt 10, Q.ofInt 11] [⟨1, 2⟩, ⟨1, 10⟩]
    true true 1 wPredOut.1 wPredOut.2 rfl

/-- C2: every prediction interval produced by `predict` (with or without
beta optimization, with or without prior `partialFit` calls) has its lower
bound at most its upper bound, hence nonnegative width. -/
theorem predict_intervals_lower_le_upper (train : TrainFn) (cfg : Config)
    (data : List (Q × Q)) (batches : List (List (Nat × Q × Q))) (xs alphas : List Q)
    (e ob : Bool) (g : Nat) (M0 M : Model) (preds : List Q) (ivs : List (List Q × List Q))
    (hfit : fit train cfg data = .ok M0) (hrun : processAll M0 batches = .ok M)
    (hp : predict M xs alphas e ob g = .ok (preds, ivs)) :
    ∀ pr ∈ ivs, ∀ k : Nat, (pr.1.getD k Q.zero).le (pr.2.getD k Q.zero) := by
  have hw : WindowNonneg M.window := processAll_nonneg hrun (fit_window_nonneg hfit)
  obtain ⟨-, -, -, pairs, hpairs, -, hivs⟩ := predict_ok_elim hp
  have hnn : ∀ p ∈ pairs, Q.zero.le p.1 ∧ Q.zero.le p.2 := by
    intro p hp2
    obtain ⟨a, -, ha⟩ := mapME_ok_mem hpairs hp2
    exact quantilePair_ok_nonneg hw ha
  intro pr hpr k
  rw [hivs] at hpr
  obtain ⟨f, -, hf⟩ := List.mem_map.mp hpr
  rw [← hf]
  exact mapped_getD_le f pairs hnn k

/-- Witness for C2 on the concrete witness run (fit, two partial-fit
batches, then a beta-optimized ensemble prediction). -/
theorem predict_intervals_lower_le_upper_w :
    ((wPredOut.2.getD 0 ([], [])).1.getD 0 Q.zero).le
      ((wPredOut.2.getD 0 ([], [])).2.getD 0 Q.zero) :=
  predict_intervals_lower_le_upper wTrain wCfg wData wBatches [Q.ofInt 10, Q.ofInt 11]
    [⟨1, 2⟩, ⟨1, 10⟩] true true 1 wM0 wM wPredOut.1 wPredOut.2 rfl rfl rfl
    (wPredOut.2.getD 0 ([], [])) (by decide) 0

/-- C3: the Residual Window's capacity is fixed at `fit` to the number of
eligible training conformity scores; across any sequence of `partialFit`
calls the capacity is unchanged and the window size always equals that
initial residual count; a push into a full window appends the new entry and
evicts the oldest (FIFO). -/
theorem residual_window_capacity_invariant (train : TrainFn) (cfg : Config)
    (data : List (Q × Q)) (batches : List (List (Nat × Q × Q))) (M0 M : Model)
    (hfit : fit train cfg data = .ok M0) (hrun : processAll M0 batches = .ok M) :
    M0.window.capacity = M0.window.entries.length ∧
    M.window.capacity = M0.window.capacity ∧
    M.window.entries.length = M0.window.entries.length ∧
    ∀ (w : Window) (e : Nat × Q), w.entries.length = w.capacity → w.entries ≠ [] →
      (pushScore w e).entries = w.entries.tail ++ [e] := by
  obtain ⟨-, -, -, -, -, hcap, -⟩ := fit_ok_fields hfit
  obtain ⟨hl2, hc2⟩ := processAll_window_inv hrun hcap.symm
  refine ⟨hcap, hc2, by rw [hl2, hc2, hcap], ?_⟩
  intro w e h hne
  cases wentries : w.entries with
  | nil => exact absurd wentries hne
  | cons x rest =>
    have hc : w.capacity = rest.length + 1 := by
      rw [← h, wentries]
      simp
    show (w.entries ++ [e]).drop ((w.entries ++ [e]).length - w.capacity)
      = (x :: rest).tail ++ [e]
    rw [wentries, List.tail_cons]
    have hlen : ((x :: rest) ++ [e]).length - w.capacity = 1 := by
      simp only [List.length_append, List.length_cons, List.length_nil, hc]
      omega
    rw [hlen, List.cons_append, List.drop_succ_cons, List.drop_zero]

/-- Witness for C3 on the concrete witness run: capacity 3 at fit, window
size 3 after both batches. -/
theorem residual_window_capacity_invariant_w :
    wM0.window.capacity = wM0.window.entries.length ∧
    wM.window.capacity = wM0.window.capacity ∧
    wM.window.entries.length = wM0.window.entries.length ∧
    ∀ (w : Window) (e : Nat × Q), w.entries.length = w.capacity → w.entries ≠ [] →
      (pushScore w e).entries = w.entries.tail ++ [e] :=
  residual_window_capacity_invariant wTrain wCfg wData wBatches wM0 wM rfl rfl

/-- C5: with identical configuration (in particular the seed) and identical
data, two runs of `fit` produce identical bootstrap resamples and identical
initial residual sets; the resamples are a function of the seed and sampler
parameters alone. -/
theorem fit_deterministic_resamples_residuals (train : TrainFn) (cfg1 cfg2 : Config)
    (data1 data2 : List (Q × Q)) (M1 M2 : Model) (hc : cfg1 = cfg2) (hd : data1 = data2)
    (h1 : fit train cfg1 data1 = .ok M1) (h2 : fit train cfg2 data2 = .ok M2) :
    M1.resamples
      = genResamples cfg1.overlapping data1.length cfg1.length cfg1.n_resamplings cfg1.seed ∧
    M1.resamples = M2.resamples ∧ M1.window.entries = M2.window.entries := by
  subst hc
  subst hd
  have e12 := h1.symm.trans h2
  rw [Except.ok.injEq] at e12
  subst e12
  exact ⟨(fit_ok_fields h1).2.1, rfl, rfl⟩

/-- Witness for C5: two runs of `fit` on the witness configuration and
data. -/
theorem fit_deterministic_resamples_residuals_w :
    wM0.resamples
      = genResamples wCfg.overlapping wData.length wCfg.length wCfg.n_resamplings wCfg.seed ∧
    wM0.resamples = wM0.resamples ∧ wM0.window.entries = wM0.window.entries :=
  fit_deterministic_resamples_residuals wTrain wCfg wCfg wData wData wM0 wM0 rfl rfl rfl rfl

/-- C6: a successful `partialFit` mutates only the Residual Window (pushing
the batch's conformity scores) and the last observed index: members,
resamples, single model and aggregation function are unchanged, and any
subsequent `predict` reads exactly the updated window state (the result
coincides with predicting on the prior model with only the window and index
replaced — no staleness). -/
theorem partialFit_frame_and_freshness (M : Model) (batch : List (Nat × Q × Q)) (M2 : Model)
    (h : partialFit M batch = .ok M2) :
    M2.members = M.members ∧ M2.resamples = M.resamples ∧ M2.singleFn = M.singleFn ∧
    M2.agg_function = M.agg_function ∧
    M2.window = batch.foldl
      (fun w s => pushScore w (s.1, ((ensembleForecast M s.2.1).sub s.2.2).absQ)) M.window ∧
    ∀ (xs alphas : List Q) (e ob : Bool) (g : Nat),
      predict M2 xs alphas e ob g
        = predict { M with window := M2.window, lastIndex := M2.lastIndex } xs alphas e ob g := by
  obtain ⟨-, h2⟩ := partialFit_ok_elim h
  subst h2
  exact ⟨rfl, rfl, rfl, rfl, rfl, fun xs alphas e ob g => rfl⟩

/-- Witness for C6 on the first concrete partial-fit batch. -/
theorem partialFit_frame_and_freshness_w :
    wM1.members = wM0.members ∧ wM1.resamples = wM0.resamples ∧
    wM1.singleFn = wM0.singleFn ∧ wM1.agg_function = wM0.agg_function ∧
    wM1.window = [(4, Q.ofInt 5, Q.ofInt 6)].foldl
      (fun w s => pushScore w (s.1, ((ensembleForecast wM0 s.2.1).sub s.2.2).absQ)) wM0.window ∧
    ∀ (xs alphas : List Q) (e ob : Bool) (g : Nat),
      predict wM1 xs alphas e ob g
        = predict { wM0 with window := wM1.window, lastIndex := wM1.lastIndex } xs alphas e ob g :=
  partialFit_frame_and_freshness wM0 [(4, Q.ofInt 5, Q.ofInt 6)] wM1 rfl

/-- C7: a `partialFit` batch containing an order index lower than the last
observed index violates the strictly-increasing caller contract and raises
ValidationError. -/
theorem partialFit_out_of_order_error (M : Model) (batch : List (Nat × Q × Q))
    (h : ∃ s ∈ batch, s.1 < M.lastIndex) :
    partialFit M batch = .error .validationError := by
  unfold partialFit
  split
  · next hcond =>
    exfalso
    obtain ⟨s, hs, hlt⟩ := h
    have := strictlyIncreasingFrom_all hcond s.1 (List.mem_map_of_mem (fun s => s.1) hs)
    omega
  · rfl

/-- Witness for C7: the witness model last saw index 3, a batch with index 1
is rejected. -/
theorem partialFit_out_of_order_error_w :
    partialFit wM0 [(1, Q.ofInt 0, Q.ofInt 0)] = .error .validationError :=
  partialFit_out_of_order_error wM0 [(1, Q.ofInt 0, Q.ofInt 0)]
    ⟨(1, Q.ofInt 0, Q.ofInt 0), by simp, by decide⟩

/-- C8: with an empty Residual Window every quantile (or beta-search)
request fails with NumericalError, and `predict` with at least one alpha
level returns that error rather than any default interval. -/
theorem empty_window_numerical_error (M : Model) (xs alphas : List Q) (e ob : Bool)
    (g : Nat) (hw : M.window.entries = []) (hne : alphas ≠ []) :
    (∀ (a : Q) (ob2 : Bool) (g2 : Nat),
      quantilePair M.window a ob2 g2 = .error .numericalError) ∧
    predict M xs alphas e ob g = .error .numericalError := by
  have hq : ∀ (a : Q) (ob2 : Bool) (g2 : Nat),
      quantilePair M.window a ob2 g2 = .error .numericalError := by
    intro a ob2 g2
    simp [quantilePair, hw]
  refine ⟨hq, ?_⟩
  unfold predict
  cases alphas with
  | nil => exact absurd rfl hne
  | cons a rest => rw [mapME_cons_error (hq a ob g)]

/-- Witness for C8: the empty-window model errors on a quantile request and
on `predict`. -/
theorem empty_window_numerical_error_w :
    (∀ (a : Q) (ob2 : Bool) (g2 : Nat),
      quantilePair defaultModel.window a ob2 g2 = .error .numericalError) ∧
    predict defaultModel [Q.ofInt 1] [⟨1, 2⟩] true true 1 = .error .numericalError :=
  empty_window_numerical_error defaultModel [Q.ofInt 1] [⟨1, 2⟩] true true 1 rfl
    (by simp)

/-- C9: `fit` fails with ConfigurationError, before any training, whenever
the block length exceeds the training-set size or the resample count is
below one. -/
theorem fit_invalid_config_error (train : TrainFn) (cfg : Config) (data : List (Q × Q))
    (h : cfg.length > data.length ∨ cfg.n_resamplings < 1) :
    fit train cfg data = .error .configurationError := by
  unfold fit
  rcases h with h | h
  · rw [if_pos (Or.inl h)]
  · rw [if_pos (Or.inr (Or.inr h))]

/-- Witness for C9: block length 9 on 4 training points is rejected at
fit time. -/
theorem fit_invalid_config_error_w :
    fit wTrain { wCfg with length := 9 } wData = .error .configurationError :=
  fit_invalid_config_error wTrain { wCfg with length := 9 } wData (Or.inl (by decide))

/-- C10: one configured aggregation function governs both the out-of-bag
aggregation used for residual calibration at `fit` and the ensemble
point-forecast aggregation used by `predict` in ensemble mode; the
configuration carries a single `agg_function` field, so the two are always
equal. -/
theorem single_agg_function_governs_both (train : TrainFn) (cfg : Config)
    (data : List (Q × Q)) (M : Model) (h : fit train cfg data = .ok M) :
    M.agg_function = cfg.agg_function ∧
    M.window.entries = oobResiduals cfg.agg_function M.members data ∧
    ∀ x : Q, predictPoint M true x
      = (aggregate cfg.agg_function (M.members.map (fun m => m.predictFn x))).getD (M.singleFn x) := by
  obtain ⟨-, -, -, hagg, hwin, -, -⟩ := fit_ok_fields h
  refine ⟨hagg, hwin, fun x => ?_⟩
  simp [predictPoint, ensembleForecast, hagg]

/-- Witness for C10 on the witness fit. -/
theorem single_agg_function_governs_both_w :
    wM0.agg_function = wCfg.agg_function ∧
    wM0.window.entries = oobResiduals wCfg.agg_function wM0.members wData ∧
    ∀ x : Q, predictPoint wM0 true x
      = (aggregate wCfg.agg_function (wM0.members.map (fun m => m.predictFn x))).getD (wM0.singleFn x) :=
  single_agg_function_governs_both wTrain wCfg wData wM0 rfl

theorem foldl_first_argmin (f : Q → Q) (l : List Q) (acc : Q) :
    ∃ l1 l2 : List Q,
      acc :: l = l1 ++ (l.foldl (fun b y => if (f y).lt (f b) then y else b) acc) :: l2 ∧
      (∀ c ∈ l1, (f (l.foldl (fun b y => if (f y).lt (f b) then y else b) acc)).lt (f c)) ∧
      (∀ c ∈ l2, (f (l.foldl (fun b y => if (f y).lt (f b) then y else b) acc)).le (f c)) := by
  induction l generalizing acc with
  | nil => exact ⟨[], [], rfl, by simp, by simp⟩
  | cons y ys ih =>
    rw [List.foldl_cons]
    by_cases hlt : (f y).lt (f acc)
    · rw [if_pos hlt]
      obtain ⟨l1, l2, heq, h1, h2⟩ := ih y
      have hy : (f (ys.foldl (fun b y => if (f y).lt (f b) then y else b) y)).le (f y) := by
        have hm0 : y ∈ l1 ++ (ys.foldl (fun b y => if (f y).lt (f b) then y else b) y) :: l2 := by
          rw [← heq]
          exact List.mem_cons_self y ys
        rcases List.mem_append.mp hm0 with hm | hm
        · exact Q.lt_imp_le (h1 y hm)
        · rcases List.mem_cons.mp hm with hm2 | hm2
          · rw [congrArg f hm2.symm]
            exact Q.le_refl _
          · exact h2 y hm2
      refine ⟨acc :: l1, l2, ?_, ?_, h2⟩
      · rw [List.cons_append]
        exact congrArg (fun t => acc :: t) heq
      · intro c hc
        rcases List.mem_cons.mp hc with hc2 | hc2
        · rw [hc2]
          exact Q.le_lt_trans hy hlt
        · exact h1 c hc2
    · rw [if_neg hlt]
      have hay : (f acc).le (f y) := Q.le_of_not_lt hlt
      obtain ⟨l1, l2, heq, h1, h2⟩ := ih acc
      cases l1 with
      | nil =>
        rw [List.nil_append, List.cons.injEq] at heq
        obtain ⟨hacc, hys⟩ := heq
        refine ⟨[], y :: l2, ?_, by simp, ?_⟩
        · rw [List.nil_append, ← hacc, ← hys]
        · intro c hc
          rcases List.mem_cons.mp hc with hc2 | hc2
          · rw [hc2, ← hacc]
            exact hay
          · exact h2 c hc2
      | cons a l1' =>
        rw [List.cons_append, List.cons.injEq] at heq
        obtain ⟨hacc, hys⟩ := heq
        have hra : (f (ys.foldl (fun b y => if (f y).lt (f b) then y else b) acc)).lt (f acc) := by
          have := h1 a (List.mem_cons_self a l1')
          rw [← hacc] at this
          exact this
        refine ⟨acc :: y :: l1', l2, ?_, ?_, h2⟩
        · rw [List.cons_append, List.cons_append]
          exact congrArg (fun t => acc :: y :: t) hys
        · intro c hc
          rcases List.mem_cons.mp hc with hc2 | hc2
          · rw [hc2]
            exact hra
          · rcases List.mem_cons.mp hc2 with hc3 | hc3
            · rw [hc3]
              exact Q.lt_of_lt_of_le hra hay
            · exact h1 c (List.mem_cons_of_mem a hc3)

theorem argminQ_spec {f : Q → Q} {l : List Q} {b : Q} (h : argminQ f l = some b) :
    b ∈ l ∧ (∀ c ∈ l, (f b).le (f c)) ∧
    ∃ l1 l2 : List Q, l = l1 ++ b :: l2 ∧ ∀ c ∈ l1, (f b).lt (f c) := by
  cases l with
  | nil => simp [argminQ] at h
  | cons x xs =>
    simp only [argminQ, Option.some.injEq] at h
    subst h
    obtain ⟨l1, l2, heq, h1, h2⟩ := foldl_first_argmin f xs x
    refine ⟨?_, ?_, l1, l2, heq, h1⟩
    · rw [heq]
      exact List.mem_append.mpr (Or.inr (List.mem_cons_self _ _))
    · intro c hc
      rw [heq] at hc
      rcases List.mem_append.mp hc with hm | hm
      · exact Q.lt_imp_le (h1 c hm)
      · rcases List.mem_cons.mp hm with hm2 | hm2
        · rw [hm2]
          exact Q.le_refl _
        · exact h2 c hm2

theorem betaGrid_mem_mid (g : Nat) (alpha : Q) :
    alpha.scale (g + 1) ⟨2 * (g + 1), by positivity⟩ ∈ betaGrid g alpha := by
  unfold betaGrid
  refine List.mem_map.mpr ⟨g, List.mem_range.mpr (by omega), rfl⟩

theorem filter_congr_on {p q2 : Nat → Bool} (l : List Nat) (h : ∀ k ∈ l, p k = q2 k) :
    l.filter p = l.filter q2 := by
  induction l with
  | nil => rfl
  | cons x xs ih =>
    simp only [List.filter_cons]
    rw [h x (List.mem_cons_self x xs), ih (fun k hk => h k (List.mem_cons_of_mem x hk))]

theorem cross_lt_transfer {a b : Q} (hab : a.num * b.d = b.num * a.d) {x n : Int}
    (h : x * a.d < a.num * n) : x * b.d < b.num * n := by
  have had := a.d_pos
  have hbd := b.d_pos
  have h3 : (x * b.d) * a.d < (b.num * n) * a.d := by
    calc (x * b.d) * a.d = (x * a.d) * b.d := by ring
    _ < (a.num * n) * b.d := mul_lt_mul_of_pos_right h hbd
    _ = (a.num * b.d) * n := by ring
    _ = (b.num * a.d) * n := by rw [hab]
    _ = (b.num * n) * a.d := by ring
  exact lt_of_mul_lt_mul_right h3 had.le

theorem quantIdx_congr {a b : Q} (hab : a.num * b.d = b.num * a.d) (n : Nat) :
    quantIdx a n = quantIdx b n := by
  unfold quantIdx
  congr 1
  apply congrArg List.length
  apply filter_congr_on
  intro k _
  apply decide_eq_decide.mpr
  constructor
  · exact fun h => cross_lt_transfer hab h
  · exact fun h => cross_lt_transfer hab.symm h

theorem quantileOf_congr {a b : Q} (hab : a.num * b.d = b.num * a.d) (scores : List Q) :
    quantileOf scores a = quantileOf scores b := by
  unfold quantileOf
  rw [quantIdx_congr hab]

theorem mid_scale_equiv (g : Nat) (alpha : Q) :
    (alpha.scale (g + 1) ⟨2 * (g + 1), by positivity⟩).num * (alpha.divSucc 1).d
      = (alpha.divSucc 1).num * (alpha.scale (g + 1) ⟨2 * (g + 1), by positivity⟩).d := by
  simp only [Q.scale, Q.divSucc, Q.d, PNat.mul_coe, PNat.mk_coe]
  push_cast
  ring

theorem upper_scale_equiv (g : Nat) (alpha : Q) :
    ((Q.one.sub alpha).add (alpha.scale (g + 1) ⟨2 * (g + 1), by positivity⟩)).num
        * (Q.one.sub (alpha.divSucc 1)).d
      = (Q.one.sub (alpha.divSucc 1)).num
        * ((Q.one.sub alpha).add (alpha.scale (g + 1) ⟨2 * (g + 1), by positivity⟩)).d := by
  simp only [Q.one, Q.sub, Q.add, Q.scale, Q.divSucc, Q.d, PNat.mul_coe, PNat.mk_coe]
  push_cast
  ring

theorem betaGrid_in_range {alpha : Q} (halpha : Q.zero.lt alpha) (g : Nat) :
    ∀ c ∈ betaGrid g alpha, Q.zero.lt c ∧ c.lt alpha := by
  intro c hc
  obtain ⟨j, hj, hcc⟩ := List.mem_map.mp hc
  rw [List.mem_range] at hj
  have hn : 0 < alpha.num := by simpa [Q.lt, Q.zero, Q.d] using halpha
  have had : (0 : Int) < ((alpha.den : ℕ) : Int) := alpha.d_pos
  subst hcc
  constructor
  · show Q.zero.num * (alpha.scale (j + 1) _).d < (alpha.scale (j + 1) _).num * Q.zero.d
    simp only [Q.zero, Q.scale, Q.d, PNat.mul_coe, PNat.mk_coe]
    push_cast
    nlinarith
  · show (alpha.scale (j + 1) _).num * alpha.d < alpha.num * (alpha.scale (j + 1) _).d
    simp only [Q.scale, Q.d, PNat.mul_coe, PNat.mk_coe]
    push_cast
    have hjb : ((j : Int) + 1) < 2 * ((g : Int) + 1) := by
      have hj2 : (j : Int) < 2 * (g : Int) + 1 := by exact_mod_cast hj
      omega
    nlinarith [mul_pos (mul_pos hn had) (show (0 : Int) < 2 * ((g : Int) + 1) - ((j : Int) + 1) by omega)]

/-- C4 (amended): when beta optimization is requested for alpha in (0,1)
over a non-empty residual window, the engine searches beta over a
discretised grid lying in (0, alpha) and returns the beta minimizing
`quantile(1-alpha+beta) - quantile(beta)` over the grid, ties broken by the
smallest (earliest) beta; the minimized quantile difference is never larger
than the symmetric difference `quantile(1-alpha/2) - quantile(alpha/2)`.
(The interval itself, `[f - quantile(beta), f + quantile(1-alpha+beta)]`,
CAN be wider than the symmetric interval: see the counterexample.) -/
theorem betaOpt_grid_minimal (scores : List Q) (alpha : Q) (g : Nat) (b : Q)
    (_hne : scores ≠ []) (halpha : Q.zero.lt alpha)
    (h : betaOpt scores alpha g = some b) :
    b ∈ betaGrid g alpha ∧
    (∀ c ∈ betaGrid g alpha, Q.zero.lt c ∧ c.lt alpha) ∧
    (∀ c ∈ betaGrid g alpha, (widthObj scores alpha b).le (widthObj scores alpha c)) ∧
    (∃ l1 l2 : List Q, betaGrid g alpha = l1 ++ b :: l2 ∧
      ∀ c ∈ l1, (widthObj scores alpha b).lt (widthObj scores alpha c)) ∧
    (widthObj scores alpha b).le
      ((quantileOf scores (Q.one.sub (alpha.divSucc 1))).sub
        (quantileOf scores (alpha.divSucc 1))) := by
  unfold betaOpt at h
  obtain ⟨hmem, hmin, l1, l2, heq, hties⟩ := argminQ_spec h
  refine ⟨hmem, betaGrid_in_range halpha g, hmin, ⟨l1, l2, heq, hties⟩, ?_⟩
  have hmid := hmin _ (betaGrid_mem_mid g alpha)
  have e1 : quantileOf scores (alpha.scale (g + 1) ⟨2 * (g + 1), by positivity⟩)
      = quantileOf scores (alpha.divSucc 1) :=
    quantileOf_congr (mid_scale_equiv g alpha) scores
  have e2 : quantileOf scores
        ((Q.one.sub alpha).add (alpha.scale (g + 1) ⟨2 * (g + 1), by positivity⟩))
      = quantileOf scores (Q.one.sub (alpha.divSucc 1)) :=
    quantileOf_congr (upper_scale_equiv g alpha) scores
  unfold widthObj at hmid ⊢
  rw [e1, e2] at hmid
  exact hmid

/-- Witness for C4's amended theorem on the counterexample scores with
`alpha = 1/2`, granularity 1: the chosen beta is `3/8`. -/
theorem betaOpt_grid_minimal_w :
    (⟨3, 8⟩ : Q) ∈ betaGrid 1 ⟨1, 2⟩ ∧
    (∀ c ∈ betaGrid 1 ⟨1, 2⟩, Q.zero.lt c ∧ c.lt ⟨1, 2⟩) ∧
    (∀ c ∈ betaGrid 1 ⟨1, 2⟩,
      (widthObj cexScores ⟨1, 2⟩ ⟨3, 8⟩).le (widthObj cexScores ⟨1, 2⟩ c)) ∧
    (∃ l1 l2 : List Q, betaGrid 1 ⟨1, 2⟩ = l1 ++ (⟨3, 8⟩ : Q) :: l2 ∧
      ∀ c ∈ l1, (widthObj cexScores ⟨1, 2⟩ ⟨3, 8⟩).lt (widthObj cexScores ⟨1, 2⟩ c)) ∧
    (widthObj cexScores ⟨1, 2⟩ ⟨3, 8⟩).le
      ((quantileOf cexScores (Q.one.sub (Q.divSucc ⟨1, 2⟩ 1))).sub
        (quantileOf cexScores (Q.divSucc ⟨1, 2⟩ 1))) :=
  betaOpt_grid_minimal cexScores ⟨1, 2⟩ 1 ⟨3, 8⟩ (by decide) (by decide) rfl

/-- Counterexample to C4 as stated: on the residual window with scores
`0,0,1,5,6,6,6,6`, `alpha = 1/2` and granularity 1, beta optimization picks
`beta = 3/8` (minimizing the quantile difference `6 - 1 = 5 < 6`), but the
resulting interval `[20 - 1, 20 + 6]` has width 7, strictly wider than the
non-optimized symmetric interval `[20 - 0, 20 + 6]` of width 6. -/
theorem betaOpt_interval_wider_cex :
    betaOpt (cexWindow.entries.map (fun e => e.2)) ⟨1, 2⟩ 1 = some ⟨3, 8⟩ ∧
    predict cexModel [Q.ofInt 20] [⟨1, 2⟩] true true 1
      = .ok ([Q.ofInt 20], [([(Q.ofInt 20).sub (Q.ofInt 1)], [(Q.ofInt 20).add (Q.ofInt 6)])]) ∧
    predict cexModel [Q.ofInt 20] [⟨1, 2⟩] true false 1
      = .ok ([Q.ofInt 20], [([(Q.ofInt 20).sub (Q.ofInt 0)], [(Q.ofInt 20).add (Q.ofInt 6)])]) ∧
    Q.lt (((Q.ofInt 20).add (Q.ofInt 6)).sub ((Q.ofInt 20).sub (Q.ofInt 0)))
      (((Q.ofInt 20).add (Q.ofInt 6)).sub ((Q.ofInt 20).sub (Q.ofInt 1))) :=
  ⟨rfl, rfl, rfl, by decide⟩
